import Mathlib

/-!
Shallow embedding of the Day-0 Dependency Guard bot (src/app.js).

Strings are modelled as Lean String values; the character-level operations
of the JavaScript source (split, lastIndexOf, includes, the regular
expressions used by the pnpm and yarn extractors) are modelled as
executable functions over List Char.  A JS Set of strings is modelled as a
duplicate-free List String in insertion order.  Publish instants are Int
milliseconds.  External collaborators (GitHub content API, JSON.parse,
registry HTTP) are parameters of the handler model.
-/

namespace Day0

/-- Strip a literal pattern from the front of a character list.
Returns the remainder when the pattern starts the list, otherwise none. -/
def stripPre : List Char → List Char → Option (List Char)
  | [], l => some l
  | _ :: _, [] => none
  | p :: ps, c :: cs => if c = p then stripPre ps cs else none

/-- JS String.prototype.includes for a literal pattern. -/
def strContains (pat : List Char) : List Char → Bool
  | [] => (stripPre pat []).isSome
  | l@(_ :: cs) => if (stripPre pat l).isSome then true else strContains pat cs

/-- JS String.prototype.lastIndexOf for a single character: -1 when absent. -/
def jsLastIndexOf : List Char → Char → Int
  | [], _ => -1
  | c :: cs, t =>
    let r := jsLastIndexOf cs t
    if 0 ≤ r then r + 1 else if c = t then 0 else -1

/-- JS String.prototype.split with a one-character separator.  Matches are
found left to right, exactly as in JS. -/
def splitOnC (a : Char) : List Char → List (List Char)
  | [] => [[]]
  | c :: cs =>
    if c = a then [] :: splitOnC a cs
    else match splitOnC a cs with
      | [] => [[c]]
      | chunk :: more => (c :: chunk) :: more

/-- JS String.prototype.split with a two-character separator.  Matches are
found left to right and do not overlap, exactly as in JS. -/
def splitOn2 (a b : Char) : List Char → List (List Char)
  | [] => [[]]
  | [c] => [[c]]
  | c :: c2 :: cs =>
    if c = a ∧ c2 = b then [] :: splitOn2 a b cs
    else match splitOn2 a b (c2 :: cs) with
      | [] => [[c]]
      | chunk :: more => (c :: chunk) :: more

/-- JS String.prototype.trim (modelled with Lean whitespace). -/
def trimWs (l : List Char) : List Char :=
  ((l.dropWhile Char.isWhitespace).reverse.dropWhile Char.isWhitespace).reverse

/-- JS Set.prototype.add on an insertion-ordered duplicate-free list. -/
def setAdd (d : List String) (s : String) : List String :=
  if s ∈ d then d else d ++ [s]

/-- Add an optional element to the set; none adds nothing. -/
def optAdd (d : List String) : Option String → List String
  | none => d
  | some s => setAdd d s

/-- The template literal name@version used by every extractor. -/
def mkSpec (name version : String) : String := name ++ "@" ++ version

/-! ## npm lockfile data model (result of JSON.parse on package-lock.json) -/

/-- The nested dependencies dictionary of an npm v1 lockfile: each entry
carries a name, a version string (empty string models a missing or falsy
version field) and its own nested dependencies, followed by the remaining
siblings. -/
inductive DepEntries where
  | nil : DepEntries
  | cons (name version : String) (children rest : DepEntries) : DepEntries
deriving DecidableEq

/-- The fields of a parsed package-lock.json that src/app.js reads.
packages maps install path to optional version (none models an entry with
no version field); name is the declared root name (empty string models a
missing name). -/
structure NpmLock where
  name : String
  lockfileVersion : Option Int
  packages : List (String × Option String)
  dependencies : DepEntries
deriving DecidableEq

/-! ## Parsers (collectFrom* in src/app.js) -/

/-- collectFromNpmLockV1: recursive walk of the nested dependencies map;
every node with a truthy version contributes name@version before its
children are walked. -/
def walkV1 : DepEntries → List String → List String
  | .nil, d => d
  | .cons nm ver children rest, d =>
    walkV1 rest (walkV1 children (if ver ≠ "" then setAdd d (mkSpec nm ver) else d))

def collectFromNpmLockV1 (lock : NpmLock) (deps : List String) : List String :=
  walkV1 lock.dependencies deps

/-- p.replace of the anchored node_modules/ pattern with the empty string:
strips one leading node_modules/ segment when present. -/
def stripNodeModules (p : String) : String :=
  match stripPre "node_modules/".data p.data with
  | some rest => String.mk rest
  | none => p

/-- The package name of a packages entry: the declared root name for the
empty key, otherwise the key with a leading node_modules/ stripped. -/
def v2name (lock : NpmLock) (p : String) : String :=
  if p = "" then lock.name else stripNodeModules p

/-- The spec contributed by one packages entry of collectFromNpmLockV2Plus:
none encodes the continue on a falsy version and the skipped add on a
falsy name. -/
def v2spec (lock : NpmLock) (pv : String × Option String) : Option String :=
  match pv.2 with
  | none => none
  | some v =>
    if v = "" then none
    else
      let name := v2name lock pv.1
      if name = "" then none else some (mkSpec name v)

def collectFromNpmLockV2Plus (lock : NpmLock) (deps : List String) : List String :=
  lock.packages.foldl (fun d pv => optAdd d (v2spec lock pv)) deps

/-- The pnpm key regex: two whitespace characters, a captured group whose
first character is none of colon, at-sign, whitespace followed by
non-colon characters, a colon, then only whitespace to the end of line.
Returns the captured group. -/
def pnpmKey (line : List Char) : Option (List Char) :=
  match line with
  | a :: b :: c0 :: r =>
    if a.isWhitespace ∧ b.isWhitespace ∧ ¬c0.isWhitespace ∧ c0 ≠ ':' ∧ c0 ≠ '@' then
      let mid := r.takeWhile (· ≠ ':')
      match r.drop mid.length with
      | ':' :: tail => if tail.all Char.isWhitespace then some (c0 :: mid) else none
      | _ => none
    else none
  | _ => none

/-- Matching the tail of the pnpm version regex after the literal: at least
one whitespace character then a non-empty greedy capture running to the end
of the line (the capture keeps trailing whitespace; when only whitespace
follows, backtracking leaves the final whitespace character as capture). -/
def versionTailCapture (tail : List Char) : Option (List Char) :=
  let w := tail.takeWhile Char.isWhitespace
  let r := tail.drop w.length
  if w.isEmpty then none
  else if r.isEmpty then
    if 2 ≤ w.length then w.getLast?.map (fun c => [c]) else none
  else some r

/-- Search the line left to right for the first position where the pnpm
version regex matches; the engine advances one character on failure. -/
def findVersionCapture : List Char → Option (List Char)
  | [] => none
  | l@(_ :: rest) =>
    match stripPre "version:".data l with
    | some tail =>
      match versionTailCapture tail with
      | some v => some v
      | none => findVersionCapture rest
    | none => findVersionCapture rest

/-- One iteration of the collectFromPnpmLock loop on a pair of consecutive
lines: a key-pattern match on the first and a version: field on the second
contribute key@version. -/
def stepPnpm (l1 l2 : List Char) : Option String :=
  match pnpmKey l1 with
  | none => none
  | some k =>
    if strContains "version:".data l2 then
      match findVersionCapture l2 with
      | some v => some (mkSpec (String.mk k) (String.mk v))
      | none => none
    else none

/-- raw.split of a single newline. -/
def pnpmLines (raw : String) : List (List Char) :=
  splitOnC '\n' raw.data

def pnpmScan : List (List Char) → List String → List String
  | [], d => d
  | [_], d => d
  | l1 :: l2 :: rest, d => pnpmScan (l2 :: rest) (optAdd d (stepPnpm l1 l2))

def collectFromPnpmLock (raw : String) (deps : List String) : List String :=
  pnpmScan (pnpmLines raw) deps

/-- Search for the yarn version regex: the literal, at least one whitespace
character, a double quote, a non-empty capture of non-quote characters and
a closing quote; the engine advances one character on failure. -/
def matchVersionQuoted : List Char → Option (List Char)
  | [] => none
  | l@(_ :: rest) =>
    match stripPre "version".data l with
    | some t1 =>
      let w := t1.takeWhile Char.isWhitespace
      let t2 := t1.drop w.length
      if w.isEmpty then matchVersionQuoted rest
      else
        match t2 with
        | '"' :: t3 =>
          let cap := t3.takeWhile (· ≠ '"')
          if cap.isEmpty ∨ (t3.drop cap.length).isEmpty then matchVersionQuoted rest
          else some cap
        | _ => matchVersionQuoted rest
    | none => matchVersionQuoted rest

/-- The global replace removing a leading double quote and a trailing
double quote with optional following colon from the stanza header. -/
def stripKeyQuotes (l : List Char) : List Char :=
  let l1 := match l with
    | '"' :: r => r
    | _ => l
  match l1.reverse with
  | ':' :: '"' :: r => r.reverse
  | '"' :: r => r.reverse
  | _ => l1

/-- The global replace removing one leading and one trailing double quote. -/
def stripQuoteEnds (l : List Char) : List Char :=
  let l1 := match l with
    | '"' :: r => r
    | _ => l
  match l1.reverse with
  | '"' :: r => r.reverse
  | _ => l1

/-- The name derived from a yarn stanza: take the header line, strip its
quoting, keep the first comma-separated selector, then rebuild
at-delimited parts in the scoped branch or truncate at the last at-sign in
the unscoped branch, and finally strip quotes and trim. -/
def yarnName (block : List Char) : List Char :=
  let keyLine := (splitOnC '\n' block).headD []
  let key0 := stripKeyQuotes keyLine
  let key1 := if strContains [',', ' '] key0
    then (splitOn2 ',' ' ' key0).headD [] else key0
  let name0 : List Char :=
    match key1 with
    | '@' :: _ =>
      let parts := (splitOnC '@' key1).filter (· ≠ [])
      match parts with
      | p0 :: p1 :: _ => '@' :: (p0 ++ '/' :: p1)
      | _ => key1
    | _ =>
      let a := jsLastIndexOf key1 '@'
      if 0 < a then key1.take a.toNat else key1
  trimWs (stripQuoteEnds name0)

/-- One stanza of collectFromYarnLock: extract the quoted version, derive
the name from the header line and, when the name is truthy, contribute
name@version. -/
def yarnStep (block : List Char) : Option String :=
  match matchVersionQuoted block with
  | none => none
  | some ver =>
    if (yarnName block).isEmpty then none
    else some (mkSpec (String.mk (yarnName block)) (String.mk ver))

/-- raw.split of a blank line (two consecutive newlines). -/
def yarnBlocks (raw : String) : List (List Char) :=
  splitOn2 '\n' '\n' raw.data

def collectFromYarnLock (raw : String) (deps : List String) : List String :=
  (yarnBlocks raw).foldl (fun d b => optAdd d (yarnStep b)) deps

/-! ## Freshness checker (the violation loop of the pull_request handler) -/

def MAX_VIOLATIONS : Nat := 100

def WINDOW_MS : Int := 24 * 60 * 60 * 1000

structure Violation where
  name : String
  version : String
  ts : Int
deriving DecidableEq

/-- The registry collaborator: a package name resolves to none when the
package is missing or the response is non-success, otherwise to its
version-to-publish-instant table. -/
def Registry : Type := String → Option (String → Option Int)

/-- One iteration of the violation loop for a single spec: split at the
last at-sign (skipping when the index is not positive), resolve the publish
instant from the registry (skipping on a missing package, non-success
response or missing timestamp), and record a Violation when the elapsed
time is strictly below the window. -/
def violationStep (reg : Registry) (window now : Int) (spec : String) : Option Violation :=
  let a := jsLastIndexOf spec.data '@'
  if a ≤ 0 then none
  else
    let name : String := String.mk (spec.data.take a.toNat)
    let version : String := String.mk (spec.data.drop (a.toNat + 1))
    match reg name with
    | none => none
    | some time =>
      match time version with
      | none => none
      | some ts => if now - ts < window then some ⟨name, version, ts⟩ else none

/-- The violation loop: push each recorded violation and break as soon as
MAX_VIOLATIONS have been recorded. -/
def freshLoop (reg : Registry) (window now : Int) : List String → List Violation → List Violation
  | [], acc => acc
  | spec :: rest, acc =>
    match violationStep reg window now spec with
    | none => freshLoop reg window now rest acc
    | some v =>
      let acc2 := acc ++ [v]
      if MAX_VIOLATIONS ≤ acc2.length then acc2 else freshLoop reg window now rest acc2

def checkFreshness (deps : List String) (reg : Registry) (window now : Int) : List Violation :=
  freshLoop reg window now deps []

/-! ## The pull_request handler pipeline -/

/-- The outside collaborators and ambient state of one handler
invocation: the content fetcher (none models a missing file or transport
failure, mirroring readTextFileFromRepo returning null), the JSON.parse
builtin (none models a parse exception), the recursive tree enumeration
result used by findLockfiles, the registry and the current instant. -/
structure Env where
  readFile : String → Option String
  jsonParse : String → Option NpmLock
  treeFiles : List String
  registry : Registry
  now : Int

/-- readTextFileFromRepo followed by the falsy check on the raw text:
null and the empty string both skip the file. -/
def readRaw (env : Env) (p : String) : Option String :=
  match env.readFile p with
  | none => none
  | some r => if r = "" then none else some r

/-- Dispatch on lockfileVersion: the v2plus collector when the field is
truthy and at least 2, otherwise the v1 collector. -/
def dispatchLock (lock : NpmLock) (deps : List String) : List String :=
  match lock.lockfileVersion with
  | some lv => if 2 ≤ lv then collectFromNpmLockV2Plus lock deps
               else collectFromNpmLockV1 lock deps
  | none => collectFromNpmLockV1 lock deps

/-- The package-lock.json branch of the handler: JSON.parse the raw text;
on success dispatch by lockfileVersion, on a parse exception log a warning
and contribute nothing.  This block appears verbatim in both the fast path
and the fallback loop of src/app.js. -/
def parseNpmLockDoc (jsonParse : String → Option NpmLock) (raw : String)
    (deps : List String) : List String :=
  match jsonParse raw with
  | some lock => dispatchLock lock deps
  | none => deps

/-- Modelled from the spec: the resilience retry that section 4.3 ascribes
to the JSON-based dialects but that is absent from src/app.js.  Truncates
the text to (and including) the last occurrence of a closing brace. -/
def truncToLastBrace (s : String) : String :=
  let a := jsLastIndexOf s.data '\x7d'
  if a < 0 then s else String.mk (s.data.take (a.toNat + 1))

/-- Modelled from the spec: parse strictly, and on failure retry on the
text truncated at the last closing brace; only when the retry also fails
is the document treated as unparsable. -/
def specTruncationRetryParse (jsonParse : String → Option NpmLock) (raw : String)
    (deps : List String) : List String :=
  match jsonParse raw with
  | some lock => dispatchLock lock deps
  | none =>
    match jsonParse (truncToLastBrace raw) with
    | some lock => dispatchLock lock deps
    | none => deps

/-- One iteration of the root-path fast-path loop: fetch the candidate,
skip when absent, otherwise dispatch on the exact root path. -/
def fastStep (env : Env) (p : String) (deps : List String) : List String :=
  match readRaw env p with
  | none => deps
  | some raw =>
    if p = "package-lock.json" then parseNpmLockDoc env.jsonParse raw deps
    else if p = "pnpm-lock.yaml" then collectFromPnpmLock raw deps
    else if p = "yarn.lock" then collectFromYarnLock raw deps
    else deps

/-- The fast path: probe the three root candidates in their fixed order.
The source has no early exit in this loop. -/
def fastPath (env : Env) (deps : List String) : List String :=
  ["package-lock.json", "pnpm-lock.yaml", "yarn.lock"].foldl
    (fun d p => fastStep env p d) deps

/-- JS String.prototype.endsWith. -/
def endsWithS (s suffix : String) : Bool :=
  (stripPre suffix.data.reverse s.data.reverse).isSome

/-- The dispatch of the fallback loop on a tree path, by suffix. -/
def treeDispatch (env : Env) (lf raw : String) (deps : List String) : List String :=
  if endsWithS lf "package-lock.json" then parseNpmLockDoc env.jsonParse raw deps
  else if endsWithS lf "pnpm-lock.yaml" then collectFromPnpmLock raw deps
  else if endsWithS lf "yarn.lock" then collectFromYarnLock raw deps
  else deps

/-- The fallback loop over the tree-scan results: unreadable files are
skipped (continue, bypassing the cap check), and after each processed file
the loop breaks once the set size exceeds 5000. -/
def fallbackLoop (env : Env) : List String → List String → List String
  | [], deps => deps
  | lf :: rest, deps =>
    match readRaw env lf with
    | none => fallbackLoop env rest deps
    | some raw =>
      let deps2 := treeDispatch env lf raw deps
      if 5000 < deps2.length then deps2 else fallbackLoop env rest deps2

/-- Both discovery phases: the fast path, then—only when it produced an
empty set—the fallback tree scan.  The Bool records whether the
tree-enumeration collaborator (findLockfiles) was invoked. -/
def collectDeps (env : Env) : List String × Bool :=
  let fast := fastPath env []
  if fast.length = 0 then (fallbackLoop env env.treeFiles fast, true) else (fast, false)

/-- The terminal state of one handler invocation. -/
structure Outcome where
  conclusion : String
  summary : String
  violations : List Violation
  depsSize : Nat
  treeScanCalled : Bool
deriving DecidableEq

/-- The whole pull_request handler after the check run is created: collect
dependencies, report the distinguished neutral outcome when the set is
empty, otherwise run the violation loop and conclude failure or success. -/
def runHandler (env : Env) : Outcome :=
  let c := collectDeps env
  let deps := c.1
  if deps.length = 0 then
    { conclusion := "neutral", summary := "No lockfile parsed",
      violations := [], depsSize := 0, treeScanCalled := c.2 }
  else
    let vs := checkFreshness deps env.registry WINDOW_MS env.now
    let badge := if vs.length ≠ 0 then "❌ Day-0 packages found" else "✅ No Day-0 packages"
    { conclusion := if vs.length ≠ 0 then "failure" else "success",
      summary := badge, violations := vs, depsSize := deps.length,
      treeScanCalled := c.2 }

/-! ## Decidable well-formedness of npm-v2plus entries, and concrete inputs
used by witnesses and counterexamples -/

/-- A packages entry is well formed when a present version is non-empty and
free of at-signs and the derived name is non-empty. -/
def v2entryOk (lock : NpmLock) (pv : String × Option String) : Bool :=
  match pv.2 with
  | none => true
  | some v => decide (v ≠ "") && decide ('@' ∉ v.data) && decide (v2name lock pv.1 ≠ "")

/-- The names contributed by the version-carrying packages entries. -/
def v2names (lock : NpmLock) (pkgs : List (String × Option String)) : List String :=
  pkgs.filterMap (fun pv => pv.2.map (fun _ => v2name lock pv.1))

/-- The yarn stanza of the spec's scoped-name test case. -/
def yarnScopedStanza : String :=
  "\"@babel/core@^7.0.0, @babel/core@^7.1.0\":\n  version \"7.2.0\""

/-- A lock with a single dependency x at 1.0.0. -/
def lockOneX : NpmLock := ⟨"r", some 2, [("node_modules/x", some "1.0.0")], .nil⟩

/-- Environment whose root package-lock.json parses to one dependency and
whose root yarn.lock holds a stanza for b at 2.0.0. -/
def envBothRoots : Env :=
  { readFile := fun p =>
      if p = "package-lock.json" then some "PKJ"
      else if p = "yarn.lock" then some "b@2.0.0:\n  version \"2.0.0\"" else none,
    jsonParse := fun s => if s = "PKJ" then some lockOneX else none,
    treeFiles := [], registry := fun _ => none, now := 0 }

/-- A JSON.parse collaborator that succeeds exactly on the two-character
text consisting of an opening and a closing brace. -/
def jsonParseBraces : String → Option NpmLock :=
  fun s => if s = "\x7b\x7d" then some lockOneX else none

/-- A package name of k letters a. -/
def aName (k : Nat) : String := String.mk (List.replicate k 'a')

/-- The i-th entry of the synthetic lockfile: a distinct node_modules key
with version 1.0.0. -/
def pkgEntryN (i : Nat) : String × Option String :=
  ("node_modules/" ++ aName (i + 1), some "1.0.0")

/-- A synthetic npm-v2plus lockfile with n unique version-carrying
entries. -/
def lockN (n : Nat) : NpmLock :=
  ⟨"root", some 2, (List.range n).map pkgEntryN, .nil⟩

/-- Environment with no root lockfile and one tree-scan lockfile that
parses to the 6000-entry synthetic lockfile. -/
def envSixThousand : Env :=
  { readFile := fun p => if p = "pkgs/package-lock.json" then some "J" else none,
    jsonParse := fun _ => some (lockN 6000),
    treeFiles := ["pkgs/package-lock.json"], registry := fun _ => none, now := 0 }

/-- Environment for the cap-termination witness: every path reads as the
one-character text t and nothing parses. -/
def envAllT : Env :=
  { readFile := fun _ => some "t", jsonParse := fun _ => none,
    treeFiles := [], registry := fun _ => none, now := 0 }

/-- Environment whose root pnpm-lock.yaml yields one dependency. -/
def envRootPnpm : Env :=
  { readFile := fun p => if p = "pnpm-lock.yaml" then some "  a:\n    version: 1.0.0" else none,
    jsonParse := fun _ => none, treeFiles := ["sub/yarn.lock"],
    registry := fun _ => none, now := 0 }

/-- A small well-formed npm-v2plus lockfile: a root entry, one dependency
and one link-only entry without a version. -/
def lockSmall : NpmLock :=
  ⟨"root", some 2,
    [("", some "1.0.0"), ("node_modules/a", some "2.0.0"), ("node_modules/link", none)], .nil⟩

/-! ## Shared lemmas -/

theorem mem_setAdd {d : List String} {s x : String} :
    s ∈ setAdd d x ↔ s ∈ d ∨ s = x := by
  unfold setAdd
  by_cases h : x ∈ d
  · rw [if_pos h]
    constructor
    · exact Or.inl
    · rintro (h1 | rfl)
      · exact h1
      · exact h
  · rw [if_neg h]
    simp

theorem mem_optAdd {d : List String} {s : String} {o : Option String} :
    s ∈ optAdd d o ↔ s ∈ d ∨ o = some s := by
  cases o with
  | none => simp [optAdd]
  | some x =>
    simp only [optAdd, mem_setAdd, Option.some.injEq]
    constructor
    · rintro (h | rfl)
      · exact Or.inl h
      · exact Or.inr rfl
    · rintro (h | rfl)
      · exact Or.inl h
      · exact Or.inr rfl

theorem mem_foldCollect {α : Type} (g : α → Option String) :
    ∀ (l : List α) (d : List String) (s : String),
      s ∈ l.foldl (fun d x => optAdd d (g x)) d ↔ s ∈ d ∨ ∃ x ∈ l, g x = some s := by
  intro l
  induction l with
  | nil => simp
  | cons a t ih =>
    intro d s
    rw [List.foldl_cons, ih, mem_optAdd]
    constructor
    · rintro ((h | h) | ⟨x, hx, hg⟩)
      · exact Or.inl h
      · exact Or.inr ⟨a, by simp, h⟩
      · exact Or.inr ⟨x, by simp [hx], hg⟩
    · rintro (h | ⟨x, hx, hg⟩)
      · exact Or.inl (Or.inl h)
      · rcases List.mem_cons.mp hx with rfl | hxt
        · exact Or.inl (Or.inr hg)
        · exact Or.inr ⟨x, hxt, hg⟩

theorem length_foldCollect {α : Type} (g : α → Option String) :
    ∀ (l : List α) (d : List String),
      (l.filterMap g).Nodup → (∀ s ∈ l.filterMap g, s ∉ d) →
      (l.foldl (fun d x => optAdd d (g x)) d).length = d.length + (l.filterMap g).length := by
  intro l
  induction l with
  | nil => simp
  | cons a t ih =>
    intro d hnd hdis
    rw [List.foldl_cons]
    cases hga : g a with
    | none =>
      rw [List.filterMap_cons_none hga] at hnd hdis
      rw [List.filterMap_cons_none hga]
      simpa [optAdd] using ih d hnd hdis
    | some s =>
      rw [List.filterMap_cons_some hga] at hnd hdis
      rw [List.filterMap_cons_some hga]
      have hsd : s ∉ d := hdis s (by simp)
      have hst : s ∉ t.filterMap g := (List.nodup_cons.mp hnd).1
      have hnd2 : (t.filterMap g).Nodup := (List.nodup_cons.mp hnd).2
      have hdis2 : ∀ x ∈ t.filterMap g, x ∉ d ++ [s] := by
        intro x hx
        simp only [List.mem_append, List.mem_singleton]
        rintro (hxd | rfl)
        · exact hdis x (by simp [hx]) hxd
        · exact hst hx
      have : optAdd d (some s) = d ++ [s] := by simp [optAdd, setAdd, hsd]
      rw [this, ih (d ++ [s]) hnd2 hdis2]
      simp
      omega

theorem stripPre_append (p r : List Char) : stripPre p (p ++ r) = some r := by
  induction p with
  | nil => simp [stripPre]
  | cons c cs ih => simp [stripPre, ih]

theorem le_jsLastIndexOf_append (pre suf : List Char) :
    (pre.length : Int) ≤ jsLastIndexOf (pre ++ '@' :: suf) '@' := by
  induction pre with
  | nil =>
    simp only [List.nil_append, List.length_nil, Int.ofNat_zero]
    rw [jsLastIndexOf]
    by_cases h : 0 ≤ jsLastIndexOf suf '@'
    · simp only [h, if_true]
      omega
    · simp [h]
  | cons c pre ih =>
    simp only [List.cons_append, List.length_cons]
    rw [jsLastIndexOf]
    have h0 : (0 : Int) ≤ jsLastIndexOf (pre ++ '@' :: suf) '@' := by
      have := ih
      omega
    simp only [h0, if_true]
    push_cast
    omega

theorem mkSpec_data (n v : String) : (mkSpec n v).data = n.data ++ '@' :: v.data := by
  show (n ++ "@" ++ v).data = _
  rw [String.data_append, String.data_append]
  simp

theorem ne_empty_iff_data {s : String} : s ≠ "" ↔ s.data ≠ [] := by
  constructor
  · intro h hd
    exact h (String.ext hd)
  · intro h he
    subst he
    exact h rfl

theorem append_at_cancel :
    ∀ (a1 : List Char) {b1 a2 b2 : List Char},
      '@' ∉ b1 → '@' ∉ b2 → a1 ++ '@' :: b1 = a2 ++ '@' :: b2 → a1 = a2 ∧ b1 = b2 := by
  intro a1
  induction a1 with
  | nil =>
    intro b1 a2 b2 h1 h2 he
    cases a2 with
    | nil =>
      simp only [List.nil_append, List.cons.injEq] at he
      exact ⟨rfl, he.2⟩
    | cons c a2t =>
      simp only [List.nil_append, List.cons_append, List.cons.injEq] at he
      exact absurd (he.2 ▸ List.mem_append_right a2t (by simp)) h1
  | cons c a1t ih =>
    intro b1 a2 b2 h1 h2 he
    cases a2 with
    | nil =>
      simp only [List.cons_append, List.nil_append, List.cons.injEq] at he
      have : '@' ∈ a1t ++ '@' :: b1 := List.mem_append_right a1t (by simp)
      rw [he.2] at this
      exact absurd (he.1 ▸ this) h2
    | cons c2 a2t =>
      simp only [List.cons_append, List.cons.injEq] at he
      obtain ⟨ha, hb⟩ := ih h1 h2 he.2
      exact ⟨by rw [he.1, ha], hb⟩

theorem mkSpec_cancel {n1 v1 n2 v2 : String}
    (h1 : '@' ∉ v1.data) (h2 : '@' ∉ v2.data)
    (he : mkSpec n1 v1 = mkSpec n2 v2) : n1 = n2 ∧ v1 = v2 := by
  have hd := congrArg String.data he
  rw [mkSpec_data, mkSpec_data] at hd
  obtain ⟨ha, hb⟩ := append_at_cancel n1.data h1 h2 hd
  exact ⟨String.ext ha, String.ext hb⟩

theorem mkSpec_lastIndexOf_pos {n v : String} (hn : n ≠ "") :
    ¬ (jsLastIndexOf (mkSpec n v).data '@' ≤ 0) := by
  intro hle
  have hge := le_jsLastIndexOf_append n.data v.data
  rw [← mkSpec_data] at hge
  have hnd : n.data ≠ [] := ne_empty_iff_data.mp hn
  have : 1 ≤ n.data.length := by
    cases hx : n.data with
    | nil => exact absurd hx hnd
    | cons a t => simp
  omega

theorem v2spec_eq_some {lock : NpmLock} {pv : String × Option String} {s : String}
    (h : v2spec lock pv = some s) :
    ∃ v, pv.2 = some v ∧ v ≠ "" ∧ v2name lock pv.1 ≠ "" ∧ s = mkSpec (v2name lock pv.1) v := by
  obtain ⟨p, ov⟩ := pv
  cases ov with
  | none => exact absurd h (by simp [v2spec])
  | some v =>
    unfold v2spec at h
    dsimp at h
    by_cases hv : v = ""
    · rw [if_pos hv] at h
      cases h
    · rw [if_neg hv] at h
      by_cases hn : v2name lock p = ""
      · rw [if_pos hn] at h
        cases h
      · rw [if_neg hn] at h
        exact ⟨v, rfl, hv, hn, (Option.some.inj h).symm⟩

theorem versionTailCapture_ne_nil {t : List Char} {v : List Char}
    (h : versionTailCapture t = some v) : v ≠ [] := by
  simp only [versionTailCapture] at h
  split at h
  · cases h
  · split at h
    · split at h
      · obtain ⟨c, _, hc⟩ := Option.map_eq_some'.mp h
        rw [← hc]
        simp
      · cases h
    · rename_i hr
      rw [Option.some.inj h] at hr
      intro hnil
      rw [hnil] at hr
      exact hr (by simp)

theorem findVersionCapture_ne_nil :
    ∀ (l : List Char) {v : List Char}, findVersionCapture l = some v → v ≠ [] := by
  intro l
  induction l with
  | nil => intro v h; simp [findVersionCapture] at h
  | cons c rest ih =>
    intro v h
    rw [findVersionCapture] at h
    cases hsp : stripPre "version:".data (c :: rest) with
    | none =>
      simp only [hsp] at h
      exact ih h
    | some t1 =>
      simp only [hsp] at h
      cases hvt : versionTailCapture t1 with
      | none =>
        simp only [hvt] at h
        exact ih h
      | some v1 =>
        simp only [hvt] at h
        rw [← Option.some.inj h]
        exact versionTailCapture_ne_nil hvt

theorem pnpmKey_ne_nil {line k : List Char} (h : pnpmKey line = some k) : k ≠ [] := by
  cases line with
  | nil => simp [pnpmKey] at h
  | cons a t1 =>
    cases t1 with
    | nil => simp [pnpmKey] at h
    | cons b t2 =>
      cases t2 with
      | nil => simp [pnpmKey] at h
      | cons c0 r =>
        simp only [pnpmKey] at h
        split at h
        · split at h
          · split at h
            · rw [← Option.some.inj h]
              simp
            · cases h
          · cases h
        · cases h

theorem stepPnpm_shape {l1 l2 : List Char} {s : String}
    (h : stepPnpm l1 l2 = some s) :
    ∃ n v, n ≠ "" ∧ v ≠ "" ∧ s = mkSpec n v := by
  cases hk : pnpmKey l1 with
  | none => simp [stepPnpm, hk] at h
  | some k =>
    by_cases hc : strContains "version:".data l2 = true
    · cases hv : findVersionCapture l2 with
      | none => simp [stepPnpm, hk, hc, hv] at h
      | some v =>
        simp only [stepPnpm, hk, hc, hv, if_true] at h
        refine ⟨String.mk k, String.mk v, ?_, ?_, (Option.some.inj h).symm⟩
        · exact ne_empty_iff_data.mpr (pnpmKey_ne_nil hk)
        · exact ne_empty_iff_data.mpr (findVersionCapture_ne_nil l2 hv)
    · simp [stepPnpm, hk, hc] at h

theorem matchVersionQuoted_ne_nil :
    ∀ (l : List Char) {v : List Char}, matchVersionQuoted l = some v → v ≠ [] := by
  intro l
  induction l with
  | nil => intro v h; simp [matchVersionQuoted] at h
  | cons c rest ih =>
    intro v h
    rw [matchVersionQuoted] at h
    cases hsp : stripPre "version".data (c :: rest) with
    | none =>
      rw [hsp] at h
      exact ih h
    | some t1 =>
      rw [hsp] at h
      simp only at h
      split at h
      · exact ih h
      · split at h
        · split at h
          · exact ih h
          · rename_i hguard
            rw [← Option.some.inj h]
            intro hnil
            exact hguard (Or.inl (by rw [hnil]; rfl))
        · exact ih h

theorem yarnStep_shape {b : List Char} {s : String}
    (h : yarnStep b = some s) :
    ∃ n v, n ≠ "" ∧ v ≠ "" ∧ s = mkSpec n v := by
  cases hv : matchVersionQuoted b with
  | none => simp [yarnStep, hv] at h
  | some ver =>
    by_cases hne : (yarnName b).isEmpty = true
    · simp [yarnStep, hv, hne] at h
    · simp only [yarnStep, hv, hne, if_false, Bool.false_eq_true] at h
      refine ⟨String.mk (yarnName b), String.mk ver, ?_, ?_, (Option.some.inj h).symm⟩
      · rw [ne_empty_iff_data]
        intro hnil
        have h0 : yarnName b = [] := hnil
        rw [h0] at hne
        exact hne rfl
      · exact ne_empty_iff_data.mpr (matchVersionQuoted_ne_nil b hv)

theorem pnpmScan_mem :
    ∀ (lines : List (List Char)) (d : List String) (s : String),
      s ∈ pnpmScan lines d ↔
        s ∈ d ∨ ∃ pr ∈ lines.zip lines.tail, stepPnpm pr.1 pr.2 = some s := by
  intro lines
  induction lines with
  | nil => simp [pnpmScan]
  | cons l1 t ih =>
    cases t with
    | nil => intro d s; simp [pnpmScan]
    | cons l2 rest =>
      intro d s
      rw [pnpmScan, ih, mem_optAdd]
      simp only [List.tail_cons, List.zip_cons_cons, List.mem_cons]
      constructor
      · rintro ((h | h) | ⟨pr, hpr, hst⟩)
        · exact Or.inl h
        · exact Or.inr ⟨(l1, l2), Or.inl rfl, h⟩
        · exact Or.inr ⟨pr, Or.inr hpr, hst⟩
      · rintro (h | ⟨pr, hpr | hpr, hst⟩)
        · exact Or.inl (Or.inl h)
        · rw [hpr] at hst
          exact Or.inl (Or.inr hst)
        · exact Or.inr ⟨pr, hpr, hst⟩

theorem mem_collectV2_of_mem {lock : NpmLock} {d : List String} {s : String}
    (h : s ∈ d) : s ∈ collectFromNpmLockV2Plus lock d :=
  (mem_foldCollect (v2spec lock) lock.packages d s).mpr (Or.inl h)

theorem mem_walkV1_of_mem :
    ∀ (t : DepEntries) (d : List String) (s : String), s ∈ d → s ∈ walkV1 t d := by
  intro t
  induction t with
  | nil => intro d s h; exact h
  | cons nm ver ch rest ihc ihr =>
    intro d s h
    rw [walkV1]
    apply ihr
    apply ihc
    split
    · exact mem_setAdd.mpr (Or.inl h)
    · exact h

theorem mem_dispatchLock_of_mem {lock : NpmLock} {d : List String} {s : String}
    (h : s ∈ d) : s ∈ dispatchLock lock d := by
  unfold dispatchLock
  split
  · split
    · exact mem_collectV2_of_mem h
    · exact mem_walkV1_of_mem _ _ _ h
  · exact mem_walkV1_of_mem _ _ _ h

theorem mem_parseNpm_of_mem {J : String → Option NpmLock} {raw : String}
    {d : List String} {s : String} (h : s ∈ d) : s ∈ parseNpmLockDoc J raw d := by
  unfold parseNpmLockDoc
  split
  · exact mem_dispatchLock_of_mem h
  · exact h

theorem mem_collectPnpm_of_mem {raw : String} {d : List String} {s : String}
    (h : s ∈ d) : s ∈ collectFromPnpmLock raw d :=
  (pnpmScan_mem (pnpmLines raw) d s).mpr (Or.inl h)

theorem mem_collectYarn_of_mem {raw : String} {d : List String} {s : String}
    (h : s ∈ d) : s ∈ collectFromYarnLock raw d :=
  (mem_foldCollect yarnStep (yarnBlocks raw) d s).mpr (Or.inl h)

theorem mem_fastStep_of_mem {env : Env} {p : String} {d : List String} {s : String}
    (h : s ∈ d) : s ∈ fastStep env p d := by
  unfold fastStep
  split
  · exact h
  · split
    · exact mem_parseNpm_of_mem h
    · split
      · exact mem_collectPnpm_of_mem h
      · split
        · exact mem_collectYarn_of_mem h
        · exact h

theorem violationStep_some_inv {reg : Registry} {window now : Int} {spec : String}
    {v : Violation} (h : violationStep reg window now spec = some v) :
    ∃ t, reg v.name = some t ∧ t v.version = some v.ts ∧ now - v.ts < window := by
  unfold violationStep at h
  dsimp only at h
  by_cases ha : jsLastIndexOf spec.data '@' ≤ 0
  · rw [if_pos ha] at h
    cases h
  · rw [if_neg ha] at h
    cases hreg : reg (String.mk (spec.data.take (jsLastIndexOf spec.data '@').toNat)) with
    | none =>
      simp only [hreg] at h
      exact absurd h (by simp)
    | some t =>
      simp only [hreg] at h
      cases ht : t (String.mk (spec.data.drop ((jsLastIndexOf spec.data '@').toNat + 1))) with
      | none =>
        simp only [ht] at h
        exact absurd h (by simp)
      | some ts =>
        simp only [ht] at h
        by_cases hw : now - ts < window
        · rw [if_pos hw] at h
          have hv := (Option.some.inj h).symm
          subst hv
          exact ⟨t, hreg, ht, hw⟩
        · rw [if_neg hw] at h
          cases h

theorem freshLoop_eq (reg : Registry) (window now : Int) :
    ∀ (rest : List String) (acc : List Violation), acc.length < MAX_VIOLATIONS →
      freshLoop reg window now rest acc
        = acc ++ (rest.filterMap (violationStep reg window now)).take
            (MAX_VIOLATIONS - acc.length) := by
  intro rest
  induction rest with
  | nil => intro acc h; simp [freshLoop]
  | cons spec t ih =>
    intro acc hacc
    rw [freshLoop]
    cases hv : violationStep reg window now spec with
    | none =>
      simp only [hv]
      rw [List.filterMap_cons_none hv, ih acc hacc]
    | some v =>
      simp only [hv]
      rw [List.filterMap_cons_some hv]
      by_cases hlen : MAX_VIOLATIONS ≤ (acc ++ [v]).length
      · rw [if_pos hlen]
        have h1 : MAX_VIOLATIONS - acc.length = 1 := by
          simp only [List.length_append, List.length_singleton] at hlen
          omega
        rw [h1]
        simp
      · rw [if_neg hlen]
        have hlt : (acc ++ [v]).length < MAX_VIOLATIONS := by omega
        rw [ih (acc ++ [v]) hlt]
        have h2 : MAX_VIOLATIONS - acc.length
            = (MAX_VIOLATIONS - (acc ++ [v]).length) + 1 := by
          simp only [List.length_append, List.length_singleton] at hlen ⊢
          omega
        rw [h2, List.take_succ_cons]
        simp

theorem violationStep_reg_none {window now : Int} {spec : String} :
    violationStep (fun _ => none) window now spec = none := by
  unfold violationStep
  dsimp only
  split
  · rfl
  · rfl

theorem checkFreshness_reg_none (deps : List String) (window now : Int) :
    checkFreshness deps (fun _ => none) window now = [] := by
  unfold checkFreshness
  suffices h : ∀ (l : List String) (acc : List Violation),
      freshLoop (fun _ => none) window now l acc = acc from h deps []
  intro l
  induction l with
  | nil => intro acc; rfl
  | cons a t ih =>
    intro acc
    rw [freshLoop]
    simp only [violationStep_reg_none]
    exact ih acc

theorem v2entryOk_some {lock : NpmLock} {pv : String × Option String} {v : String}
    (hok : v2entryOk lock pv = true) (hv : pv.2 = some v) :
    v ≠ "" ∧ '@' ∉ v.data ∧ v2name lock pv.1 ≠ "" := by
  obtain ⟨p, ov⟩ := pv
  simp only at hv
  subst hv
  simp only [v2entryOk, Bool.and_eq_true, decide_eq_true_eq] at hok
  exact ⟨hok.1.1, hok.1.2, hok.2⟩

theorem v2spec_of_ok {lock : NpmLock} {pv : String × Option String} {v : String}
    (h1 : v ≠ "") (h2 : v2name lock pv.1 ≠ "") (hv : pv.2 = some v) :
    v2spec lock pv = some (mkSpec (v2name lock pv.1) v) := by
  obtain ⟨p, ov⟩ := pv
  simp only at hv
  subst hv
  simp only at h2
  simp [v2spec, h1, h2]

theorem v2_filterMap_props (lock : NpmLock) :
    ∀ (pkgs : List (String × Option String)),
      (∀ pv ∈ pkgs, v2entryOk lock pv = true) → (v2names lock pkgs).Nodup →
      (pkgs.filterMap (v2spec lock)).length = pkgs.countP (fun pv => pv.2.isSome)
      ∧ (pkgs.filterMap (v2spec lock)).Nodup := by
  intro pkgs
  induction pkgs with
  | nil => intro _ _; simp
  | cons pv t ih =>
    intro hok hnd
    have hokpv := hok pv (by simp)
    have hokt : ∀ q ∈ t, v2entryOk lock q = true := fun q hq => hok q (by simp [hq])
    cases hpv : pv.2 with
    | none =>
      have hsp : v2spec lock pv = none := by
        obtain ⟨p, ov⟩ := pv
        simp only at hpv
        subst hpv
        simp [v2spec]
      have hnm : v2names lock (pv :: t) = v2names lock t := by
        simp [v2names, hpv]
      rw [hnm] at hnd
      obtain ⟨hl, hn⟩ := ih hokt hnd
      refine ⟨?_, ?_⟩
      · rw [List.filterMap_cons_none hsp, List.countP_cons]
        simp [hpv, hl]
      · rw [List.filterMap_cons_none hsp]
        exact hn
    | some v =>
      obtain ⟨hv1, hv2, hv3⟩ := v2entryOk_some hokpv hpv
      have hsp : v2spec lock pv = some (mkSpec (v2name lock pv.1) v) :=
        v2spec_of_ok hv1 hv3 hpv
      have hnm : v2names lock (pv :: t) = v2name lock pv.1 :: v2names lock t := by
        simp [v2names, hpv]
      rw [hnm] at hnd
      have hn1 : v2name lock pv.1 ∉ v2names lock t := (List.nodup_cons.mp hnd).1
      have hn2 : (v2names lock t).Nodup := (List.nodup_cons.mp hnd).2
      obtain ⟨hl, hn⟩ := ih hokt hn2
      have hnotin : mkSpec (v2name lock pv.1) v ∉ t.filterMap (v2spec lock) := by
        intro hmem
        obtain ⟨q, hqmem, hq⟩ := List.mem_filterMap.mp hmem
        obtain ⟨v2, hv2eq, hv2ne, hv2nm, hv2spec⟩ := v2spec_eq_some hq
        obtain ⟨_, hv2at, _⟩ := v2entryOk_some (hokt q hqmem) hv2eq
        obtain ⟨heqn, _⟩ := mkSpec_cancel hv2 hv2at hv2spec
        apply hn1
        rw [heqn]
        exact List.mem_filterMap.mpr ⟨q, hqmem, by simp [hv2eq]⟩
      refine ⟨?_, ?_⟩
      · rw [List.filterMap_cons_some hsp, List.countP_cons]
        simp [hpv, hl]
      · rw [List.filterMap_cons_some hsp]
        exact List.nodup_cons.mpr ⟨hnotin, hn⟩

theorem collectV2_length_of_ok (lock : NpmLock)
    (h1 : ∀ pv ∈ lock.packages, v2entryOk lock pv = true)
    (h2 : (v2names lock lock.packages).Nodup) :
    (collectFromNpmLockV2Plus lock []).length
      = lock.packages.countP (fun pv => pv.2.isSome) := by
  obtain ⟨hl, hn⟩ := v2_filterMap_props lock lock.packages h1 h2
  have hfold := length_foldCollect (v2spec lock) lock.packages [] hn (by simp)
  unfold collectFromNpmLockV2Plus
  rw [hfold]
  simpa using hl

theorem aName_succ_ne_empty (k : Nat) : aName (k + 1) ≠ "" := by
  rw [ne_empty_iff_data]
  intro h
  have := congrArg List.length h
  simp [aName] at this

theorem v2name_node_modules (lock : NpmLock) (s : String) :
    v2name lock ("node_modules/" ++ s) = s := by
  unfold v2name
  have hne : ("node_modules/" ++ s) ≠ "" := by
    rw [ne_empty_iff_data, String.data_append]
    intro h
    rcases List.append_eq_nil.mp h with ⟨h1, _⟩
    exact absurd h1 (by decide)
  rw [if_neg hne]
  unfold stripNodeModules
  rw [String.data_append, stripPre_append]

theorem v2names_lockN (n : Nat) :
    v2names (lockN n) ((List.range n).map pkgEntryN)
      = (List.range n).map (fun i => aName (i + 1)) := by
  unfold v2names
  rw [List.filterMap_map]
  have hc : ((fun pv : String × Option String =>
        pv.2.map (fun _ => v2name (lockN n) pv.1)) ∘ pkgEntryN)
      = fun i => some (aName (i + 1)) := by
    funext i
    simp [pkgEntryN, v2name_node_modules]
  rw [hc]
  rw [show (fun i => some (aName (i + 1)))
        = some ∘ (fun i => aName (i + 1)) from rfl,
      List.filterMap_eq_map]

theorem lockN_names_nodup (n : Nat) :
    (v2names (lockN n) ((List.range n).map pkgEntryN)).Nodup := by
  rw [v2names_lockN]
  apply List.Nodup.map _ (List.nodup_range n)
  intro i j h
  have := congrArg (fun s : String => s.data.length) h
  simp [aName] at this
  omega

theorem lockN_ok (n : Nat) :
    ∀ pv ∈ (List.range n).map pkgEntryN, v2entryOk (lockN n) pv = true := by
  intro pv hpv
  obtain ⟨i, _, rfl⟩ := List.mem_map.mp hpv
  simp only [v2entryOk, pkgEntryN, Bool.and_eq_true, decide_eq_true_eq]
  refine ⟨⟨by decide, by decide⟩, ?_⟩
  rw [v2name_node_modules]
  exact aName_succ_ne_empty i

theorem lockN_countP (n : Nat) :
    ((List.range n).map pkgEntryN).countP (fun pv => pv.2.isSome) = n := by
  rw [List.countP_map]
  have hc : ((fun pv : String × Option String => pv.2.isSome) ∘ pkgEntryN)
      = fun _ => true := by
    funext i
    simp [pkgEntryN]
  rw [hc]
  simp [List.countP_true]

theorem collect_lockN_length (n : Nat) :
    (collectFromNpmLockV2Plus (lockN n) []).length = n := by
  have h := collectV2_length_of_ok (lockN n) (lockN_ok n) (lockN_names_nodup n)
  exact h.trans (lockN_countP n)

/-! ## Claim theorems -/

/-- Claim C1: the freshness check records a Violation for a dependency
exactly when the registry yields a publish instant for that version and
now minus publishedAt is strictly below the window (missing packages,
non-success responses and missing timestamps contribute nothing, which the
filterMap characterization captures since violationStep is none there);
the returned list is exactly the first MAX_VIOLATIONS such records, hence
has at most 100 entries with iteration stopping early, and every recorded
violation carries a registry-backed publish instant inside the window. -/
theorem claim1_checkFreshness_exact (deps : List String) (reg : Registry)
    (window now : Int) :
    checkFreshness deps reg window now
      = (deps.filterMap (violationStep reg window now)).take MAX_VIOLATIONS
    ∧ (checkFreshness deps reg window now).length ≤ MAX_VIOLATIONS
    ∧ ∀ v ∈ checkFreshness deps reg window now,
        ∃ t, reg v.name = some t ∧ t v.version = some v.ts ∧ now - v.ts < window := by
  have h0 : checkFreshness deps reg window now
      = (deps.filterMap (violationStep reg window now)).take MAX_VIOLATIONS := by
    unfold checkFreshness
    rw [freshLoop_eq reg window now deps [] (by simp [MAX_VIOLATIONS])]
    simp
  refine ⟨h0, ?_, ?_⟩
  · rw [h0, List.length_take]
    exact min_le_left _ _
  · intro v hv
    rw [h0] at hv
    have hv2 : v ∈ deps.filterMap (violationStep reg window now) :=
      List.take_subset _ _ hv
    obtain ⟨spec, _, hstep⟩ := List.mem_filterMap.mp hv2
    exact violationStep_some_inv hstep

/-- Claim C2: the final conclusion is one of neutral, failure, success;
neutral exactly when the aggregated set is empty after both phases, with
the distinguished No lockfile parsed summary; failure exactly when the set
is non-empty and at least one violation is recorded; success exactly when
the set is non-empty and no violation is recorded. -/
theorem claim2_conclusion_trichotomy (env : Env) :
    ((runHandler env).conclusion = "neutral" ∨ (runHandler env).conclusion = "failure"
      ∨ (runHandler env).conclusion = "success")
    ∧ ((runHandler env).conclusion = "neutral" ↔ (collectDeps env).1 = [])
    ∧ ((runHandler env).summary = "No lockfile parsed" ↔ (collectDeps env).1 = [])
    ∧ ((runHandler env).conclusion = "failure" ↔
        ((collectDeps env).1 ≠ [] ∧ (runHandler env).violations ≠ []))
    ∧ ((runHandler env).conclusion = "success" ↔
        ((collectDeps env).1 ≠ [] ∧ (runHandler env).violations = [])) := by
  by_cases hd : (collectDeps env).1.length = 0
  · have hnil := List.length_eq_zero.mp hd
    have hr : runHandler env
        = ⟨"neutral", "No lockfile parsed", [], 0, (collectDeps env).2⟩ := by
      simp only [runHandler]
      rw [if_pos hd]
    rw [hr]
    dsimp only
    refine ⟨Or.inl rfl, ⟨fun _ => hnil, fun _ => rfl⟩, ⟨fun _ => hnil, fun _ => rfl⟩, ?_, ?_⟩
    · constructor
      · intro hx
        exact absurd hx (by decide)
      · rintro ⟨hx, _⟩
        exact absurd hnil hx
    · constructor
      · intro hx
        exact absurd hx (by decide)
      · rintro ⟨hx, _⟩
        exact absurd hnil hx
  · have hne : (collectDeps env).1 ≠ [] := by
      intro h0
      exact hd (by simp [h0])
    by_cases hv : (checkFreshness (collectDeps env).1 env.registry WINDOW_MS env.now).length = 0
    · have hvnil := List.length_eq_zero.mp hv
      have hr : runHandler env
          = ⟨"success", "✅ No Day-0 packages",
             checkFreshness (collectDeps env).1 env.registry WINDOW_MS env.now,
             (collectDeps env).1.length, (collectDeps env).2⟩ := by
        simp [runHandler, hd, hvnil]
      rw [hr]
      dsimp only
      refine ⟨Or.inr (Or.inr rfl), ?_, ?_, ?_, ?_⟩
      · exact ⟨fun hx => absurd hx (by decide), fun hx => absurd hx hne⟩
      · exact ⟨fun hx => absurd hx (by decide), fun hx => absurd hx hne⟩
      · constructor
        · intro hx
          exact absurd hx (by decide)
        · rintro ⟨_, hx⟩
          exact absurd hvnil hx
      · exact ⟨fun _ => ⟨hne, hvnil⟩, fun _ => rfl⟩
    · have hvne : checkFreshness (collectDeps env).1 env.registry WINDOW_MS env.now ≠ [] := by
        intro h0
        exact hv (by simp [h0])
      have hr : runHandler env
          = ⟨"failure", "❌ Day-0 packages found",
             checkFreshness (collectDeps env).1 env.registry WINDOW_MS env.now,
             (collectDeps env).1.length, (collectDeps env).2⟩ := by
        simp [runHandler, hd, hv]
      rw [hr]
      dsimp only
      refine ⟨Or.inr (Or.inl rfl), ?_, ?_, ?_, ?_⟩
      · exact ⟨fun hx => absurd hx (by decide), fun hx => absurd hx hne⟩
      · exact ⟨fun hx => absurd hx (by decide), fun hx => absurd hx hne⟩
      · exact ⟨fun _ => ⟨hne, hvne⟩, fun _ => rfl⟩
      · constructor
        · intro hx
          exact absurd hx (by decide)
        · rintro ⟨_, hx⟩
          exact absurd hx hvne

/-- Claim C3 (code bug): on the spec's scoped test stanza the yarn
extractor contributes the malformed identifier built by joining the first
two truthy at-delimited parts with a slash, namely
at-babel/core/caret-7.0.0 at 7.2.0, not the intended at-babel/core at
7.2.0 that the claim requires. -/
theorem claim3_yarn_scoped_divergence :
    collectFromYarnLock yarnScopedStanza [] = ["@babel/core/^7.0.0@7.2.0"]
    ∧ "@babel/core@7.2.0" ∉ collectFromYarnLock yarnScopedStanza [] := by
  decide

/-- Claim C4 counterexample: with no root lockfile and a single fallback
lockfile of 6000 unique entries, the aggregation of both discovery phases
ends with a DependencySet of 6000 entries, exceeding the 5000 cap, because
the cap is only checked between fallback lockfiles. -/
theorem claim4_counterexample :
    collectDeps envSixThousand = (collectFromNpmLockV2Plus (lockN 6000) [], true)
    ∧ (collectFromNpmLockV2Plus (lockN 6000) []).length = 6000
    ∧ ¬ ((collectFromNpmLockV2Plus (lockN 6000) []).length ≤ 5000) := by
  have hfast : fastPath envSixThousand [] = [] := by decide
  have hread : readRaw envSixThousand "pkgs/package-lock.json" = some "J" := by decide
  have hlv : (lockN 6000).lockfileVersion = some 2 := rfl
  have htd : treeDispatch envSixThousand "pkgs/package-lock.json" "J" []
      = collectFromNpmLockV2Plus (lockN 6000) [] := by
    unfold treeDispatch
    rw [if_pos (by decide : endsWithS "pkgs/package-lock.json" "package-lock.json" = true)]
    show parseNpmLockDoc envSixThousand.jsonParse "J" [] = _
    unfold parseNpmLockDoc
    show dispatchLock (lockN 6000) [] = _
    unfold dispatchLock
    simp only [hlv]
    rw [if_pos (by decide : (2 : Int) ≤ 2)]
  have h6 := collect_lockN_length 6000
  have hfall : fallbackLoop envSixThousand ["pkgs/package-lock.json"] []
      = collectFromNpmLockV2Plus (lockN 6000) [] := by
    rw [fallbackLoop]
    simp only [hread]
    rw [htd]
    rw [if_pos (by rw [h6]; decide)]
  have hcd : collectDeps envSixThousand
      = (collectFromNpmLockV2Plus (lockN 6000) [], true) := by
    unfold collectDeps
    rw [hfast]
    simp only [List.length_nil, if_pos rfl]
    show (fallbackLoop envSixThousand ["pkgs/package-lock.json"] [], true) = _
    rw [hfall]
  exact ⟨hcd, h6, by rw [h6]; decide⟩

/-- Claim C4 amended: the cap is a between-lockfiles early-termination
device, not a bound on the set: once processing one fallback lockfile
leaves the set above 5000 entries, no further lockfile is processed, as a
normal outcome; the set itself can end above the cap (see the
counterexample) and the fast path is uncapped. -/
theorem claim4_amended_cap_stops (env : Env) (lf : String) (rest : List String)
    (deps : List String) (raw : String) (h1 : readRaw env lf = some raw)
    (h2 : 5000 < (treeDispatch env lf raw deps).length) :
    fallbackLoop env (lf :: rest) deps = treeDispatch env lf raw deps := by
  rw [fallbackLoop]
  simp only [h1]
  rw [if_pos h2]

/-- Witness for the amended C4 theorem at a concrete oversized set. -/
theorem claim4_amended_witness :
    (5000 < (treeDispatch envAllT "README.md" "t" (List.replicate 5001 "d")).length)
    ∧ fallbackLoop envAllT ["README.md", "other"] (List.replicate 5001 "d")
        = treeDispatch envAllT "README.md" "t" (List.replicate 5001 "d") := by
  have hgen : ∀ d : List String, treeDispatch envAllT "README.md" "t" d = d := by
    intro d
    unfold treeDispatch
    rw [if_neg (by decide), if_neg (by decide), if_neg (by decide)]
  have hlen : 5000 < (treeDispatch envAllT "README.md" "t" (List.replicate 5001 "d")).length := by
    rw [hgen, List.length_replicate]
    decide
  have hr : readRaw envAllT "README.md" = some "t" := by decide
  exact ⟨hlen, claim4_amended_cap_stops envAllT "README.md" ["other"]
    (List.replicate 5001 "d") "t" hr hlen⟩

/-- Claim C5: when the root-level fast path yields at least one
dependency, the fallback tree-enumeration collaborator is never invoked. -/
theorem claim5_fast_nonempty_no_treescan (env : Env) (h : fastPath env [] ≠ []) :
    (runHandler env).treeScanCalled = false := by
  have hl : ¬ (fastPath env []).length = 0 := by
    intro h0
    exact h (List.length_eq_zero.mp h0)
  have hcd : collectDeps env = (fastPath env [], false) := by
    unfold collectDeps
    rw [if_neg hl]
  unfold runHandler
  rw [hcd]
  dsimp only
  rw [if_neg hl]

/-- Witness for C5 at a repository whose root pnpm lockfile yields one
dependency. -/
theorem claim5_witness :
    fastPath envRootPnpm [] ≠ [] ∧ (runHandler envRootPnpm).treeScanCalled = false :=
  ⟨by decide, claim5_fast_nonempty_no_treescan envRootPnpm (by decide)⟩

/-- Claim C6 counterexample: the root loop has no early exit, so even when
the first candidate already contributed a dependency the later root
candidates are still fetched and parsed: in envBothRoots the yarn.lock
dependency lands in the set. -/
theorem claim6_counterexample :
    ¬ (∀ env : Env, fastStep env "package-lock.json" [] ≠ [] →
        fastPath env [] = fastStep env "package-lock.json" []) := by
  intro h
  have h2 := h envBothRoots (by decide)
  have h3 : fastPath envBothRoots [] = ["x@1.0.0", "b@2.0.0"] := by decide
  have h4 : fastStep envBothRoots "package-lock.json" [] = ["x@1.0.0"] := by decide
  rw [h3, h4] at h2
  exact absurd h2 (by decide)

/-- Claim C6 amended: the fast path probes the three root candidates in
the fixed order package-lock.json, pnpm-lock.yaml, yarn.lock and parses
every present candidate in that order, accumulating contributions without
losing earlier ones; there is no early stop inside the root loop (only the
fallback tree scan is skipped when the result is non-empty, which is
claim C5). -/
theorem claim6_amended_order (env : Env) (d : List String) :
    fastPath env d
      = fastStep env "yarn.lock"
          (fastStep env "pnpm-lock.yaml" (fastStep env "package-lock.json" d))
    ∧ ∀ s ∈ d, s ∈ fastPath env d := by
  refine ⟨rfl, ?_⟩
  intro s hs
  exact mem_fastStep_of_mem (mem_fastStep_of_mem (mem_fastStep_of_mem hs))

/-- Witness for the amended C6 theorem at a concrete environment. -/
theorem claim6_amended_witness :
    fastPath envAllT ["a@1"]
      = fastStep envAllT "yarn.lock"
          (fastStep envAllT "pnpm-lock.yaml" (fastStep envAllT "package-lock.json" ["a@1"]))
    ∧ ∀ s ∈ (["a@1"] : List String), s ∈ fastPath envAllT ["a@1"] :=
  claim6_amended_order envAllT ["a@1"]

/-- Claim C7 counterexample: the code never retries a failed JSON parse on
the text truncated at the last closing brace; with a parser that fails on
the raw text but succeeds on its truncation, the code contributes nothing
while the spec's retry behaviour would contribute the lockfile's entry. -/
theorem claim7_counterexample :
    ¬ (∀ (J : String → Option NpmLock) (raw : String) (deps : List String),
        parseNpmLockDoc J raw deps = specTruncationRetryParse J raw deps) := by
  intro h
  have h2 := h jsonParseBraces "\x7b\x7dX" []
  have h3 : parseNpmLockDoc jsonParseBraces "\x7b\x7dX" [] = [] := by decide
  have h4 : specTruncationRetryParse jsonParseBraces "\x7b\x7dX" [] = ["x@1.0.0"] := by
    decide
  rw [h3, h4] at h2
  exact absurd h2 (by decide)

/-- Claim C7 amended: when strict JSON parsing fails the document is
immediately treated as unparsable with no truncation retry; it contributes
nothing and the surrounding run continues. -/
theorem claim7_amended_no_retry (J : String → Option NpmLock) (raw : String)
    (deps : List String) (h : J raw = none) : parseNpmLockDoc J raw deps = deps := by
  unfold parseNpmLockDoc
  simp only [h]

/-- Witness for the amended C7 theorem. -/
theorem claim7_amended_witness :
    ((fun _ : String => (none : Option NpmLock)) "x" = none)
    ∧ parseNpmLockDoc (fun _ => none) "x" ["d@1"] = ["d@1"] :=
  ⟨rfl, claim7_amended_no_retry (fun _ => none) "x" ["d@1"] rfl⟩

/-- Claim C8: on a well-formed npm-v2plus lockfile (non-empty at-free
versions, non-empty pairwise-distinct derived names) the set extracted
into a fresh DependencySet has size equal to the number of packages
entries carrying a version field. -/
theorem claim8_v2plus_size (lock : NpmLock)
    (h1 : ∀ pv ∈ lock.packages, v2entryOk lock pv = true)
    (h2 : (v2names lock lock.packages).Nodup) :
    (collectFromNpmLockV2Plus lock []).length
      = lock.packages.countP (fun pv => pv.2.isSome) :=
  collectV2_length_of_ok lock h1 h2

/-- Witness for C8 on a small concrete lockfile with a root entry, a
dependency entry and a versionless link entry. -/
theorem claim8_witness :
    (∀ pv ∈ lockSmall.packages, v2entryOk lockSmall pv = true)
    ∧ (v2names lockSmall lockSmall.packages).Nodup
    ∧ (collectFromNpmLockV2Plus lockSmall []).length
        = lockSmall.packages.countP (fun pv => pv.2.isSome) :=
  ⟨by decide, by decide, claim8_v2plus_size lockSmall (by decide) (by decide)⟩

/-- Claim C9: the pnpm extractor contributes a spec exactly for the
consecutive line pairs whose first line matches the key pattern and whose
second line carries a version field (as captured by stepPnpm), on top of
the incoming set; the extractor is a total function, so no input can make
it throw. -/
theorem claim9_pnpm_exact (raw : String) (deps : List String) (s : String) :
    s ∈ collectFromPnpmLock raw deps ↔
      s ∈ deps ∨ ∃ pr ∈ (pnpmLines raw).zip (pnpmLines raw).tail,
        stepPnpm pr.1 pr.2 = some s :=
  pnpmScan_mem (pnpmLines raw) deps s

/-- Claim C10: every identifier the npm-v2plus, pnpm and yarn extractors
insert has the form name at version with non-empty name and version, so
its last at-sign sits at a positive index and the freshness loop's skip
branch (last index at most 0) cannot fire on it. -/
theorem claim10_extracted_specs_wellformed (lock : NpmLock) (rawP rawY : String)
    (deps : List String) (s : String)
    (hs : s ∈ collectFromYarnLock rawY
        (collectFromPnpmLock rawP (collectFromNpmLockV2Plus lock deps))) :
    s ∈ deps ∨ ∃ n v, n ≠ "" ∧ v ≠ "" ∧ s = mkSpec n v
      ∧ ¬ (jsLastIndexOf s.data '@' ≤ 0) := by
  have hy := (mem_foldCollect yarnStep (yarnBlocks rawY) _ s).mp hs
  rcases hy with hp | ⟨b, _, hstep⟩
  · have hp2 := (pnpmScan_mem (pnpmLines rawP) _ s).mp hp
    rcases hp2 with h2 | ⟨pr, _, hstep⟩
    · have h3 := (mem_foldCollect (v2spec lock) lock.packages _ s).mp h2
      rcases h3 with h4 | ⟨pv, _, hsp⟩
      · exact Or.inl h4
      · obtain ⟨v, _, hvne, hnne, hseq⟩ := v2spec_eq_some hsp
        exact Or.inr ⟨_, v, hnne, hvne, hseq,
          by rw [hseq]; exact mkSpec_lastIndexOf_pos hnne⟩
    · obtain ⟨n, v, hn, hv, hseq⟩ := stepPnpm_shape hstep
      exact Or.inr ⟨n, v, hn, hv, hseq,
        by rw [hseq]; exact mkSpec_lastIndexOf_pos hn⟩
  · obtain ⟨n, v, hn, hv, hseq⟩ := yarnStep_shape hstep
    exact Or.inr ⟨n, v, hn, hv, hseq,
      by rw [hseq]; exact mkSpec_lastIndexOf_pos hn⟩

/-- Witness for C10 through the npm-v2plus extractor. -/
theorem claim10_witness :
    ("x@1.0.0" ∈ collectFromYarnLock ""
        (collectFromPnpmLock "" (collectFromNpmLockV2Plus lockOneX [])))
    ∧ ("x@1.0.0" ∈ ([] : List String) ∨ ∃ n v, n ≠ "" ∧ v ≠ ""
        ∧ "x@1.0.0" = mkSpec n v ∧ ¬ (jsLastIndexOf "x@1.0.0".data '@' ≤ 0)) :=
  ⟨by decide, claim10_extracted_specs_wellformed lockOneX "" "" [] "x@1.0.0" (by decide)⟩

end Day0
